import Mathlib

/-!
Verification development for the log-focus filtering core
(`src/filter.ts`, `src/commands.ts`, `focusProvider.ts`).

The TypeScript source is shallowly embedded: classes become structures,
methods become pure functions with explicit state passing, JavaScript
`Map`s become association lists with insertion-order semantics, and the
wall clock (`Date.now()`) becomes an explicit `now : Nat` parameter.
JavaScript `Set<number>` (insertion-ordered, deduplicating) is modelled
by a duplicate-free list with `setAdd` / `setDelete`.
-/

namespace LogFocus

/-- `vscode.Position` (line, character). -/
structure Position where
  line : Nat
  character : Nat
deriving DecidableEq, Repr

/-- `vscode.Range` between two positions; only whole-line zero-width
ranges are produced by the embedded code. -/
structure Range where
  startPos : Position
  endPos : Position
deriving DecidableEq, Repr

/-- The host document collaborator: a stable identity string, a version
counter and the full text (`document.getText()`). -/
structure TextDocument where
  uriStr : String
  version : Nat
  text : String
deriving DecidableEq, Repr

/-- The document's lines: VS Code splits on newline, so
`document.lineAt i` is the i-th element of the split. -/
def docLines (doc : TextDocument) : List String :=
  doc.text.splitOn "\n"

/-- `document.lineCount`. -/
def lineCount (doc : TextDocument) : Nat :=
  (docLines doc).length

/-- `document.lineAt(n).text`; out-of-range access throws in the host,
modelled by `none`. -/
def lineAt (doc : TextDocument) (n : Nat) : Option String :=
  (docLines doc).get? n

/-! JavaScript `Map` semantics over string keys: an association list in
insertion order; `set` on an existing key updates in place, `delete`
removes the key, iteration follows the list order. -/

/-- `Map.get`. -/
def mapGet {α : Type} (m : List (String × α)) (k : String) : Option α :=
  (m.find? (fun p => p.1 = k)).map Prod.snd

/-- `Map.set`: update in place if the key is present, else append. -/
def mapSet {α : Type} (m : List (String × α)) (k : String) (v : α) :
    List (String × α) :=
  if (m.find? (fun p => p.1 = k)).isSome then
    m.map (fun p => if p.1 = k then (k, v) else p)
  else
    m ++ [(k, v)]

/-- `Map.delete`. -/
def mapDelete {α : Type} (m : List (String × α)) (k : String) :
    List (String × α) :=
  m.filter (fun p => ¬ p.1 = k)

/-- Keys of a map, for stating the no-duplicate-keys invariant that a
real `Map` maintains. -/
def mapKeys {α : Type} (m : List (String × α)) : List String :=
  m.map Prod.fst

/-! JavaScript `Set<number>` as a duplicate-free list in insertion
order. -/

/-- `Set.add`. -/
def setAdd (s : List Nat) (n : Nat) : List Nat :=
  if n ∈ s then s else s ++ [n]

/-- `Set.delete`. -/
def setDelete (s : List Nat) (n : Nat) : List Nat :=
  s.filter (fun m => m ≠ n)

/-- `EditorMetaData` from `filter.ts`. -/
structure EditorMetaData where
  lineCount : Nat
  isLargeFile : Bool
  isFocusMode : Bool
  isSelected : Bool
deriving DecidableEq, Repr

/-- `EditorInfo` from `filter.ts`: the editor is reduced to its
document. -/
structure EditorInfo where
  uri : String
  document : TextDocument
  metaData : EditorMetaData
deriving DecidableEq, Repr

/-- `EditorCacheEntry` from `filter.ts`. -/
structure EditorCacheEntry where
  uri : String
  version : Nat
  size : Nat
  contentHash : String
  lastModified : Nat
  matchedRanges : List Range
  matchedLineNumbers : List Nat
  count : Nat
  lastAnalyzed : Nat
deriving DecidableEq, Repr

/-- A compiled regular expression: its source string and its per-line
match function (`RegExp.prototype.test`), the latter supplied by the
host regex engine, which is an external collaborator. -/
structure Regex where
  source : String
  test : String → Bool

/-- The `Filter` class state (`filter.ts`).  Colors, icons and the
decoration handle are pure rendering state, out of the verified core;
the fields the filtering logic reads are kept. -/
structure Filter where
  regex : Regex
  id : String
  isHighlighted : Bool
  isShown : Bool
  isExclude : Bool
  count : Nat
  activeEditors : List (String × EditorInfo)
  editorCache : List (String × EditorCacheEntry)
  regexVersion : Nat

/-- `Filter._cacheMaxSize` (maximum number of cached editors). -/
def cacheMaxSize : Nat := 10

/-- `Filter._cacheMaxAge` (5 minutes, in milliseconds). -/
def cacheMaxAge : Nat := 300000

/-- `maxRanges` inside `computeOptimizedAnalysis`. -/
def maxRanges : Nat := 500

/-- `Filter.calculateContentHash`: the source uses an MD5 hex digest as
a content fingerprint; the model keeps the fingerprint injective
(collision-freedom of the hash is assumed) by letting the content stand
for its own digest. -/
def calculateContentHash (content : String) : String :=
  content

/-- `Filter.test`: does a line match this filter's pattern. -/
def Filter.testLine (f : Filter) (line : String) : Bool :=
  f.regex.test line

/-- One step of the scan loop of `computeAnalysis`: on a match, count
it, record the line number and push a whole-line range. -/
def scanStep (acc : List Range × List Nat × Nat) (p : Nat × String)
    (matched : Bool) : List Range × List Nat × Nat :=
  if matched then
    (acc.1 ++ [⟨⟨p.1, 0⟩, ⟨p.1, 0⟩⟩], acc.2.1 ++ [p.1], acc.2.2 + 1)
  else acc

/-- `Filter.computeAnalysis`: scan every line, build matched ranges,
matched line numbers and the match count, and stamp the entry with the
document's current version, size and hash.  `lastAnalyzed` is left 0,
set by the caller. -/
def computeAnalysis (f : Filter) (info : EditorInfo) (now : Nat) :
    EditorCacheEntry :=
  let doc := info.document
  let lines := doc.text.splitOn "\n"
  let res := lines.enum.foldl
    (fun acc p => scanStep acc p (f.testLine p.2)) ([], [], 0)
  { uri := doc.uriStr
    version := doc.version
    size := doc.text.utf8ByteSize
    contentHash := calculateContentHash doc.text
    lastModified := now
    matchedRanges := res.1
    matchedLineNumbers := res.2.1
    count := res.2.2
    lastAnalyzed := 0 }

/-- One step of the scan loop of `computeOptimizedAnalysis`: as
`scanStep`, but a range is pushed only while fewer than `maxRanges`
ranges are stored. -/
def scanStepOptimized (acc : List Range × List Nat × Nat)
    (p : Nat × String) (matched : Bool) : List Range × List Nat × Nat :=
  if matched then
    (if acc.1.length < maxRanges then acc.1 ++ [⟨⟨p.1, 0⟩, ⟨p.1, 0⟩⟩]
     else acc.1,
     acc.2.1 ++ [p.1], acc.2.2 + 1)
  else acc

/-- `Filter.computeOptimizedAnalysis`: the large-file scan; identical
to `computeAnalysis` except that the stored decoration-range list is
capped at `maxRanges`. -/
def computeOptimizedAnalysis (f : Filter) (info : EditorInfo)
    (now : Nat) : EditorCacheEntry :=
  let doc := info.document
  let lines := doc.text.splitOn "\n"
  let res := lines.enum.foldl
    (fun acc p => scanStepOptimized acc p (f.testLine p.2)) ([], [], 0)
  { uri := doc.uriStr
    version := doc.version
    size := doc.text.utf8ByteSize
    contentHash := calculateContentHash doc.text
    lastModified := now
    matchedRanges := res.1
    matchedLineNumbers := res.2.1
    count := res.2.2
    lastAnalyzed := 0 }

/-- `Filter.isCacheValid`: version, byte size and content hash must all
equal the document's current values, and the entry's age must not
exceed the TTL, halved when the metadata marks the document large.
`Date.now()` is the explicit `now`; JavaScript's possibly-negative age
and truncated `Nat` subtraction agree on the comparison's outcome. -/
def isCacheValid (entry : EditorCacheEntry) (doc : TextDocument)
    (metaData : Option EditorMetaData) (now : Nat) : Bool :=
  if entry.version ≠ doc.version then false
  else if entry.size ≠ doc.text.utf8ByteSize then false
  else if entry.contentHash ≠ calculateContentHash doc.text then false
  else
    let isLarge := (metaData.map (fun m => m.isLargeFile)).getD false
    let maxAge := if isLarge then cacheMaxAge / 2 else cacheMaxAge
    decide (now - entry.lastAnalyzed ≤ maxAge)

/-- `Filter.cleanupExpiredCache`: iterate over the entries and delete
every one whose age exceeds `cacheMaxAge` (the full TTL — the entry
records no capture mode). -/
def cleanupExpiredCache (cache : List (String × EditorCacheEntry))
    (now : Nat) : List (String × EditorCacheEntry) :=
  cache.foldl
    (fun acc p =>
      if now - p.2.lastAnalyzed > cacheMaxAge then mapDelete acc p.1
      else acc)
    cache

/-- The comparator of `enforceMaxCacheSize`:
`(a, b) => a.lastAnalyzed - b.lastAnalyzed` sorts ascending by capture
timestamp. -/
def byLastAnalyzed (a b : String × EditorCacheEntry) : Prop :=
  a.2.lastAnalyzed ≤ b.2.lastAnalyzed

instance : DecidableRel byLastAnalyzed :=
  fun a b => inferInstanceAs (Decidable (a.2.lastAnalyzed ≤ b.2.lastAnalyzed))

instance : IsTotal (String × EditorCacheEntry) byLastAnalyzed :=
  ⟨fun a b => Nat.le_total a.2.lastAnalyzed b.2.lastAnalyzed⟩

instance : IsTrans (String × EditorCacheEntry) byLastAnalyzed :=
  ⟨fun _ _ _ hab hbc => Nat.le_trans hab hbc⟩

/-- `Filter.enforceMaxCacheSize`: if over capacity, sort the entries by
`lastAnalyzed` ascending (JavaScript's stable sort) and delete the
oldest until at most `cacheMaxSize` remain. -/
def enforceMaxCacheSize (cache : List (String × EditorCacheEntry)) :
    List (String × EditorCacheEntry) :=
  if cache.length ≤ cacheMaxSize then cache
  else
    let entries := cache.insertionSort byLastAnalyzed
    let toRemove := entries.take (cache.length - cacheMaxSize)
    toRemove.foldl (fun acc p => mapDelete acc p.1) cache

/-- `Filter.getCachedAnalysisOrCompute`: sweep expired entries, return
a valid cached entry unchanged, otherwise recompute (standard or
large-file scan), stamp `lastAnalyzed`, store and enforce capacity.
Returns the entry together with the filter's updated cache map. -/
def getCachedAnalysisOrCompute (f : Filter) (info : EditorInfo)
    (now : Nat) : EditorCacheEntry × List (String × EditorCacheEntry) :=
  let editorUri := info.document.uriStr
  let doc := info.document
  let cache1 := cleanupExpiredCache f.editorCache now
  match mapGet cache1 editorUri with
  | some cached =>
    if isCacheValid cached doc (some info.metaData) now then
      (cached, cache1)
    else
      let newEntry :=
        if info.metaData.isLargeFile then
          { computeOptimizedAnalysis f info now with lastAnalyzed := now }
        else
          { computeAnalysis f info now with lastAnalyzed := now }
      (newEntry, enforceMaxCacheSize (mapSet cache1 editorUri newEntry))
  | none =>
    let newEntry :=
      if info.metaData.isLargeFile then
        { computeOptimizedAnalysis f info now with lastAnalyzed := now }
      else
        { computeAnalysis f info now with lastAnalyzed := now }
    (newEntry, enforceMaxCacheSize (mapSet cache1 editorUri newEntry))

/-- `Filter.getMatchedLineNumbers` for a given editor URI: unknown
editors yield `[]`; a valid cache entry is reused, otherwise
`getCachedAnalysisOrCompute` recomputes. -/
def getMatchedLineNumbers (f : Filter) (editorUri : String) (now : Nat) :
    List Nat :=
  match mapGet f.activeEditors editorUri with
  | none => []
  | some info =>
    match mapGet f.editorCache editorUri with
    | some entry =>
      if isCacheValid entry info.document (some info.metaData) now then
        entry.matchedLineNumbers
      else (getCachedAnalysisOrCompute f info now).1.matchedLineNumbers
    | none => (getCachedAnalysisOrCompute f info now).1.matchedLineNumbers

/-- `Filter.clearCache` with no argument: drop every cached entry. -/
def clearCache (f : Filter) : Filter :=
  { f with editorCache := [] }

/-- `Filter.setRegex`: replace the pattern, bump the pattern-version
counter and invalidate the whole cache. -/
def setRegex (f : Filter) (newRegex : Regex) : Filter :=
  let f1 := { f with regex := newRegex,
                     regexVersion := f.regexVersion + 1 }
  clearCache f1

/-- A `Project`'s filter map (`utils.ts`); `forEach` iterates the
values in insertion order, so the map is kept as the value list. -/
structure Project where
  name : String
  filters : List Filter

/-- `FocusProvider.getActiveFilters`: partition the selected project's
shown filters into positive and exclude lists; a missing project yields
two empty lists. -/
def getActiveFilters (project : Option Project) : List Filter × List Filter :=
  match project with
  | none => ([], [])
  | some proj =>
    proj.filters.foldl
      (fun acc f =>
        if f.isShown then
          if f.isExclude then (acc.1, acc.2 ++ [f])
          else (acc.1 ++ [f], acc.2)
        else acc)
      ([], [])

/-- The visible-line set before sorting, shared by
`getVisibleLines` and `generateFilteredContent`: union of the positive
filters' matched lines when any exist, else the full line range minus
the exclude filters' matched lines. -/
def collectResultLines (project : Option Project) (originalUri : String)
    (originalDoc : TextDocument) (now : Nat) : List Nat :=
  let acts := getActiveFilters project
  if acts.1.length > 0 then
    acts.1.foldl
      (fun s f => (getMatchedLineNumbers f originalUri now).foldl setAdd s)
      []
  else
    let allLines := (List.range (lineCount originalDoc)).foldl setAdd []
    acts.2.foldl
      (fun s f => (getMatchedLineNumbers f originalUri now).foldl setDelete s)
      allLines

/-- `FocusProvider.getVisibleLines`: the visible-line set converted to
an array and sorted ascending (`Array.from(resultLines).sort`). -/
def getVisibleLines (project : Option Project) (originalUri : String)
    (originalDoc : TextDocument) (now : Nat) : List Nat :=
  (collectResultLines project originalUri originalDoc now).insertionSort
    (fun a b => a ≤ b)

/-- `FocusProvider.generateFilteredContent`: start from the empty
header line, then for each sorted visible line below the document's
line count append that line's text; `document.lineAt` on an
out-of-range index throws, which propagates as `none`. -/
def generateFilteredContent (project : Option Project)
    (originalUri : String) (doc : TextDocument) (now : Nat) :
    Option String :=
  let sortedLines := getVisibleLines project originalUri doc now
  (sortedLines.foldlM
      (fun arr lineNum =>
        if lineNum < lineCount doc then
          (lineAt doc lineNum).map (fun s => arr ++ [s])
        else pure arr)
      [""]).map
    (fun arr => String.intercalate "\n" arr)

/-- JavaScript `Array.prototype.indexOf`: the index of the first
occurrence, with the absent case (-1 in the source) as `none`. -/
def jsIndexOf (l : List Nat) (o : Nat) : Option Nat :=
  match l with
  | [] => none
  | x :: xs =>
    if x = o then some 0
    else (jsIndexOf xs o).map (fun i => i + 1)

/-- The original-to-focus line mapping inside
`buildFocusDecorationRanges` (`commands.ts`): focus document line 0 is
the empty header, so a visible original line maps to its index in the
visible sequence plus one; an invisible line has no mapping. -/
def originalToFocusLine (visibleLines : List Nat) (o : Nat) : Option Nat :=
  (jsIndexOf visibleLines o).map (fun i => i + 1)

/-- Modelled from the spec: the reverse mapping (focus line to original
line) is the element of the visible sequence at index f - 1; it appears
in the spec's LineIndexMapper contract and has no separate body in the
source. -/
def focusToOriginalLine (visibleLines : List Nat) (f : Nat) : Option Nat :=
  visibleLines.get? (f - 1)

/-- `buildFocusDecorationRanges` (`commands.ts`): for each matched
original line that is visible, push a zero-width range on its
focus-view line. -/
def buildFocusDecorationRanges (matchedLines visibleLines : List Nat) :
    List Range :=
  matchedLines.foldl
    (fun ranges o =>
      match jsIndexOf visibleLines o with
      | some idx => ranges ++ [⟨⟨idx + 1, 0⟩, ⟨idx + 1, 0⟩⟩]
      | none => ranges)
    []

/-- A `Group` (`utils.ts`), reduced to the fields `addFilter`
touches. -/
structure Group where
  name : String
  id : String
  filters : List (String × Filter)

/-- Outcome of a filter-mutating command: nothing happened, the state
was updated, or an invalid pattern was reported
(`vscode.window.showErrorMessage` in `editFilter`, an uncaught
exception in `addFilter` — either way the mutation is refused). -/
inductive CommandOutcome where
  | noChange
  | updated
  | invalidPattern
deriving DecidableEq, Repr

/-- `editFilter` (`commands.ts`), after the input box returned
`regexStrOpt`: an undefined or unchanged input is ignored; otherwise
`new RegExp` either compiles (`compile` is the host regex engine) and
the filter's pattern is replaced via `setRegex`, or throws and the
`catch` reports the error leaving the filter untouched. -/
def editFilter (f : Filter) (regexStrOpt : Option String)
    (compile : String → Option Regex) : CommandOutcome × Filter :=
  match regexStrOpt with
  | none => (CommandOutcome.noChange, f)
  | some regexStr =>
    if regexStr = f.regex.source then (CommandOutcome.noChange, f)
    else
      match compile regexStr with
      | some r => (CommandOutcome.updated, setRegex f r)
      | none => (CommandOutcome.invalidPattern, f)

/-- A fresh `Filter` as built by the `Filter` constructor for
`addFilter`: default flags, empty caches. -/
def newFilter (r : Regex) (newId : String) : Filter :=
  { regex := r
    id := newId
    isHighlighted := true
    isShown := true
    isExclude := false
    count := 0
    activeEditors := []
    editorCache := []
    regexVersion := 0 }

/-- `addFilter` (`commands.ts`), after the input box returned
`regexStrOpt` and the group was looked up: a falsy input (undefined or
empty string) or missing group is ignored; `new RegExp(regexStr)`
throwing on an invalid pattern aborts the callback before any state is
touched; otherwise the new filter is added to the group and the
project's flat filter list. -/
def addFilter (grp : Option Group) (proj : Project)
    (regexStrOpt : Option String) (compile : String → Option Regex)
    (newId : String) : CommandOutcome × Option Group × Project :=
  match regexStrOpt with
  | none => (CommandOutcome.noChange, grp, proj)
  | some regexStr =>
    if regexStr = "" then (CommandOutcome.noChange, grp, proj)
    else
      match grp with
      | none => (CommandOutcome.noChange, none, proj)
      | some g =>
        match compile regexStr with
        | none => (CommandOutcome.invalidPattern, some g, proj)
        | some r =>
          let filter := newFilter r newId
          (CommandOutcome.updated,
           some { g with filters := mapSet g.filters filter.id filter },
           { proj with filters := proj.filters ++ [filter] })

/-! ## Concrete fixtures

Small closed instances of the data model used to evaluate the verified
functions on concrete inputs. -/

/-- Metadata of a small (non-degraded) three-line document. -/
def metaSmall : EditorMetaData := ⟨3, false, false, false⟩

/-- Metadata of a document flagged as large/degraded. -/
def metaLarge : EditorMetaData := ⟨3, true, false, false⟩

/-- A three-line document with lines "a", "b", "c". -/
def docABC : TextDocument := ⟨"u", 1, "a\nb\nc"⟩

/-- A pattern matching exactly the line "a". -/
def regexA : Regex := ⟨"a", fun s => s == "a"⟩

/-- A pattern matching exactly the line "b". -/
def regexB : Regex := ⟨"b", fun s => s == "b"⟩

/-- A pattern matching the lines "b" and "c". -/
def regexBC : Regex := ⟨"bc", fun s => s == "b" || s == "c"⟩

/-- Editor info for `docABC`. -/
def infoABC : EditorInfo := ⟨"u", docABC, metaSmall⟩

/-- A shown positive filter on `docABC`, matching line 1 only. -/
def filterPos : Filter :=
  ⟨regexB, "filter-1", true, true, false, 0, [("u", infoABC)], [], 0⟩

/-- A shown exclude filter on `docABC`, matching lines 1 and 2. -/
def filterExcl : Filter :=
  ⟨regexBC, "filter-2", true, true, true, 0, [("u", infoABC)], [], 0⟩

/-- A project with one positive and one exclude filter. -/
def projMixed : Project := ⟨"p", [filterPos, filterExcl]⟩

/-- A project with only the exclude filter. -/
def projExclOnly : Project := ⟨"p2", [filterExcl]⟩

/-- A filter matching line 0 and, before caching, an empty cache. -/
def filterA0 : Filter :=
  ⟨regexA, "filter-3", true, true, false, 0, [("u", infoABC)], [], 0⟩

/-- A cache entry produced by a standard scan of `docABC` at time 100,
captured at time 100. -/
def entryHit : EditorCacheEntry :=
  { computeAnalysis filterA0 infoABC 100 with lastAnalyzed := 100 }

/-- `filterA0` with `entryHit` stored under its document's key. -/
def filterA : Filter := { filterA0 with editorCache := [("u", entryHit)] }

/-- A cache entry captured at time 0 by the degraded (large-file)
scan. -/
def entryDegraded : EditorCacheEntry :=
  { computeOptimizedAnalysis filterA0 ⟨"u", docABC, metaLarge⟩ 0 with
      lastAnalyzed := 0 }

/-- Editor info for `docABC` flagged as a large/degraded document. -/
def infoLarge : EditorInfo := ⟨"u", docABC, metaLarge⟩

/-- A cache entry produced by the degraded (large-file) scan of
`docABC` at time 100, captured at time 100. -/
def entryHitL : EditorCacheEntry :=
  { computeOptimizedAnalysis filterA0 infoLarge 100 with
      lastAnalyzed := 100 }

/-- `filterA0` with the degraded-captured `entryHitL` stored under its
document's key. -/
def filterAL : Filter := { filterA0 with editorCache := [("u", entryHitL)] }

/-- A literal cache entry captured at time 10. -/
def entryOld : EditorCacheEntry :=
  ⟨"u1", 1, 5, "a\nb\nc", 0, [], [0], 1, 10⟩

/-- A literal cache entry captured at time 20. -/
def entryNew : EditorCacheEntry :=
  ⟨"u2", 1, 5, "a\nb\nc", 0, [], [1], 1, 20⟩

/-- A two-entry cache with distinct keys. -/
def cacheTwo : List (String × EditorCacheEntry) :=
  [("u1", entryOld), ("u2", entryNew)]

/-- A host regex engine on which every pattern fails to compile. -/
def compileNone : String → Option Regex := fun _ => none

/-! ## Set and map lemmas -/

lemma mem_setAdd {s : List Nat} {m n : Nat} :
    n ∈ setAdd s m ↔ n ∈ s ∨ n = m := by
  unfold setAdd
  split
  · rename_i h
    constructor
    · exact Or.inl
    · rintro (hs | rfl)
      · exact hs
      · exact h
  · simp [List.mem_append]

lemma nodup_setAdd {s : List Nat} {m : Nat} (h : s.Nodup) :
    (setAdd s m).Nodup := by
  unfold setAdd
  split
  · exact h
  · rename_i hm
    rw [List.nodup_append]
    refine ⟨h, List.nodup_singleton m, ?_⟩
    intro a ha hb
    rw [List.mem_singleton] at hb
    subst hb
    exact hm ha

lemma mem_foldl_setAdd (l : List Nat) :
    ∀ (s : List Nat) (n : Nat), n ∈ l.foldl setAdd s ↔ n ∈ s ∨ n ∈ l := by
  induction l with
  | nil => simp
  | cons x xs ih =>
    intro s n
    simp only [List.foldl_cons, ih, mem_setAdd, List.mem_cons]
    tauto

lemma nodup_foldl_setAdd (l : List Nat) :
    ∀ (s : List Nat), s.Nodup → (l.foldl setAdd s).Nodup := by
  induction l with
  | nil => exact fun _ h => h
  | cons x xs ih =>
    intro s hs
    exact ih _ (nodup_setAdd hs)

lemma mem_setDelete {s : List Nat} {m n : Nat} :
    m ∈ setDelete s n ↔ m ∈ s ∧ m ≠ n := by
  simp [setDelete, List.mem_filter]

lemma nodup_setDelete {s : List Nat} {n : Nat} (h : s.Nodup) :
    (setDelete s n).Nodup :=
  List.Nodup.sublist (List.filter_sublist s) h

lemma mem_foldl_setDelete (l : List Nat) :
    ∀ (s : List Nat) (m : Nat),
      m ∈ l.foldl setDelete s ↔ m ∈ s ∧ m ∉ l := by
  induction l with
  | nil => simp
  | cons x xs ih =>
    intro s m
    simp only [List.foldl_cons, ih, mem_setDelete, List.mem_cons]
    tauto

lemma nodup_foldl_setDelete (l : List Nat) :
    ∀ (s : List Nat), s.Nodup → (l.foldl setDelete s).Nodup := by
  induction l with
  | nil => exact fun _ h => h
  | cons x xs ih =>
    intro s hs
    exact ih _ (nodup_setDelete hs)

/-- Membership in the positive-filter union fold of
`collectResultLines`. -/
lemma mem_posUnion (g : Filter → List Nat) (fs : List Filter) :
    ∀ (s : List Nat) (n : Nat),
      n ∈ fs.foldl (fun s f => (g f).foldl setAdd s) s ↔
        n ∈ s ∨ ∃ f ∈ fs, n ∈ g f := by
  induction fs with
  | nil => simp
  | cons f fs ih =>
    intro s n
    simp only [List.foldl_cons, ih, mem_foldl_setAdd, List.mem_cons]
    constructor
    · rintro ((hs | hf) | ⟨f', hf', hn⟩)
      · exact Or.inl hs
      · exact Or.inr ⟨f, Or.inl rfl, hf⟩
      · exact Or.inr ⟨f', Or.inr hf', hn⟩
    · rintro (hs | ⟨f', (rfl | hf'), hn⟩)
      · exact Or.inl (Or.inl hs)
      · exact Or.inl (Or.inr hn)
      · exact Or.inr ⟨f', hf', hn⟩

lemma nodup_posUnion (g : Filter → List Nat) (fs : List Filter) :
    ∀ (s : List Nat), s.Nodup →
      (fs.foldl (fun s f => (g f).foldl setAdd s) s).Nodup := by
  induction fs with
  | nil => exact fun _ h => h
  | cons f fs ih =>
    intro s hs
    exact ih _ (nodup_foldl_setAdd _ _ hs)

/-- Membership in the exclude-filter difference fold of
`collectResultLines`. -/
lemma mem_exclDiff (g : Filter → List Nat) (fs : List Filter) :
    ∀ (s : List Nat) (n : Nat),
      n ∈ fs.foldl (fun s f => (g f).foldl setDelete s) s ↔
        n ∈ s ∧ ∀ f ∈ fs, n ∉ g f := by
  induction fs with
  | nil => simp
  | cons f fs ih =>
    intro s n
    simp only [List.foldl_cons, ih, mem_foldl_setDelete, List.mem_cons]
    constructor
    · rintro ⟨⟨hs, hf⟩, hall⟩
      refine ⟨hs, ?_⟩
      rintro f' (rfl | hf') hn
      · exact hf hn
      · exact hall f' hf' hn
    · rintro ⟨hs, hall⟩
      exact ⟨⟨hs, hall f (Or.inl rfl)⟩, fun f' hf' => hall f' (Or.inr hf')⟩

lemma nodup_exclDiff (g : Filter → List Nat) (fs : List Filter) :
    ∀ (s : List Nat), s.Nodup →
      (fs.foldl (fun s f => (g f).foldl setDelete s) s).Nodup := by
  induction fs with
  | nil => exact fun _ h => h
  | cons f fs ih =>
    intro s hs
    exact ih _ (nodup_foldl_setDelete _ _ hs)

/-- Entries of a map with duplicate-free keys are determined by their
key. -/
lemma eq_of_mapKeys_nodup {α : Type} {l : List (String × α)}
    (hnd : (mapKeys l).Nodup) {p q : String × α}
    (hp : p ∈ l) (hq : q ∈ l) (hk : p.1 = q.1) : p = q := by
  induction l with
  | nil => cases hp
  | cons a rest ih =>
    have hnd' : a.1 ∉ mapKeys rest ∧ (mapKeys rest).Nodup := by
      simpa [mapKeys] using hnd
    rcases List.mem_cons.mp hp with rfl | hp'
    · rcases List.mem_cons.mp hq with rfl | hq'
      · rfl
      · exact absurd (hk ▸ List.mem_map.mpr ⟨q, hq', rfl⟩) hnd'.1
    · rcases List.mem_cons.mp hq with rfl | hq'
      · exact absurd (hk ▸ List.mem_map.mpr ⟨p, hp', rfl⟩) hnd'.1
      · exact ih hnd'.2 hp' hq'

/-- A successful `mapGet` exhibits the pair in the list. -/
lemma mapGet_mem {α : Type} {l : List (String × α)} {k : String} {e : α}
    (h : mapGet l k = some e) : (k, e) ∈ l := by
  unfold mapGet at h
  cases hf : l.find? (fun p => p.1 = k) with
  | none => rw [hf] at h; cases h
  | some p =>
    rw [hf] at h
    have hpk : p.1 = k := by simpa using List.find?_some hf
    have hpe : p.2 = e := by simpa using h
    have : p = (k, e) := by
      cases p
      simp_all
    exact this ▸ List.mem_of_find?_eq_some hf

/-- Filtering a map keeps a looked-up entry reachable as long as the
entry itself is kept. -/
lemma mapGet_filter {α : Type} {l : List (String × α)} {k : String}
    {e : α} (pred : String × α → Bool) (h : mapGet l k = some e)
    (hkeep : pred (k, e) = true) : mapGet (l.filter pred) k = some e := by
  induction l with
  | nil => simp [mapGet] at h
  | cons p rest ih =>
    by_cases hpk : p.1 = k
    · have hpe : p = (k, e) := by
        unfold mapGet at h
        rw [List.find?_cons_of_pos _ (by simpa using hpk)] at h
        cases p
        simp_all
      subst hpe
      rw [List.filter_cons_of_pos hkeep]
      unfold mapGet
      rw [List.find?_cons_of_pos _ (by simp)]
      rfl
    · have h' : mapGet rest k = some e := by
        unfold mapGet at h ⊢
        rwa [List.find?_cons_of_neg _ (by simpa using hpk)] at h
      by_cases hp : pred p = true
      · rw [List.filter_cons_of_pos hp]
        unfold mapGet
        rw [List.find?_cons_of_neg _ (by simpa using hpk)]
        exact ih h'
      · rw [List.filter_cons_of_neg (by simpa using hp)]
        exact ih h'

/-! ## Sweep and eviction lemmas -/

/-- The delete-while-iterating loop of `cleanupExpiredCache` as a
filter over the accumulator. -/
lemma foldl_delete_expired (now : Nat) :
    ∀ (iter acc : List (String × EditorCacheEntry)),
      iter.foldl
        (fun acc p =>
          if now - p.2.lastAnalyzed > cacheMaxAge then mapDelete acc p.1
          else acc) acc
      = acc.filter
          (fun q =>
            decide (∀ p ∈ iter,
              now - p.2.lastAnalyzed > cacheMaxAge → ¬ q.1 = p.1)) := by
  intro iter
  induction iter with
  | nil =>
    intro acc
    simp
  | cons p rest ih =>
    intro acc
    rw [List.foldl_cons, ih]
    by_cases hp : now - p.2.lastAnalyzed > cacheMaxAge
    · rw [if_pos hp]
      unfold mapDelete
      rw [List.filter_filter]
      refine List.filter_congr ?_
      intro q _
      rw [Bool.and_comm]
      simp only [Bool.and_eq_decide, decide_eq_decide]
      constructor
      · rintro ⟨h1, h2⟩ r hr hexp
        rcases List.mem_cons.mp hr with rfl | hr'
        · simpa using h1
        · exact h2 r hr' hexp
      · intro h
        exact ⟨by simpa using h p (List.mem_cons_self p rest) hp,
               fun r hr hexp => h r (List.mem_cons.mpr (Or.inr hr)) hexp⟩
    · rw [if_neg hp]
      refine List.filter_congr ?_
      intro q _
      simp only [decide_eq_decide]
      constructor
      · intro h r hr hexp
        rcases List.mem_cons.mp hr with rfl | hr'
        · exact absurd hexp hp
        · exact h r hr' hexp
      · intro h r hr hexp
        exact h r (List.mem_cons.mpr (Or.inr hr)) hexp

/-- With duplicate-free keys, the TTL sweep is exactly the filter
keeping the entries whose age does not exceed the full TTL. -/
lemma cleanup_eq_filter {cache : List (String × EditorCacheEntry)}
    (hnd : (mapKeys cache).Nodup) (now : Nat) :
    cleanupExpiredCache cache now
      = cache.filter (fun q => decide (now - q.2.lastAnalyzed ≤ cacheMaxAge)) := by
  unfold cleanupExpiredCache
  rw [foldl_delete_expired]
  refine List.filter_congr ?_
  intro q hq
  simp only [decide_eq_decide]
  constructor
  · intro h
    by_contra hgt
    exact h q hq (Nat.lt_of_not_le hgt) rfl
  · intro hle r hr hexp hk
    have : q = r := eq_of_mapKeys_nodup hnd hq hr hk
    subst this
    exact absurd hle (Nat.not_le_of_lt hexp)

/-- The unconditional delete loop of `enforceMaxCacheSize` as a filter
over the accumulator. -/
lemma foldl_delete_all :
    ∀ (iter acc : List (String × EditorCacheEntry)),
      iter.foldl (fun acc p => mapDelete acc p.1) acc
      = acc.filter (fun q => decide (∀ p ∈ iter, ¬ q.1 = p.1)) := by
  intro iter
  induction iter with
  | nil =>
    intro acc
    simp
  | cons p rest ih =>
    intro acc
    rw [List.foldl_cons, ih]
    unfold mapDelete
    rw [List.filter_filter]
    refine List.filter_congr ?_
    intro q _
    rw [Bool.and_comm]
    simp only [Bool.and_eq_decide, decide_eq_decide]
    constructor
    · rintro ⟨h1, h2⟩ r hr
      rcases List.mem_cons.mp hr with rfl | hr'
      · simpa using h1
      · exact h2 r hr'
    · intro h
      exact ⟨by simpa using h p (List.mem_cons_self p rest),
             fun r hr => h r (List.mem_cons.mpr (Or.inr hr))⟩

/-- Capacity eviction: with duplicate-free keys the result has exactly
`min length cacheMaxSize` entries, every surviving entry was present
before, and every evicted entry is at least as old as every survivor. -/
lemma enforce_spec {cache : List (String × EditorCacheEntry)}
    (hnd : (mapKeys cache).Nodup) :
    (enforceMaxCacheSize cache).length = min cache.length cacheMaxSize ∧
    (∀ q ∈ enforceMaxCacheSize cache, q ∈ cache) ∧
    ∀ p ∈ cache, p ∉ enforceMaxCacheSize cache →
      ∀ q ∈ enforceMaxCacheSize cache,
        p.2.lastAnalyzed ≤ q.2.lastAnalyzed := by
  by_cases hlen : cache.length ≤ cacheMaxSize
  · have hres : enforceMaxCacheSize cache = cache := by
      unfold enforceMaxCacheSize
      rw [if_pos hlen]
    rw [hres]
    refine ⟨by rw [Nat.min_eq_left hlen], fun q hq => hq, ?_⟩
    intro p hp hnp
    exact absurd hp hnp
  · have hle : cacheMaxSize ≤ cache.length :=
      Nat.le_of_lt (Nat.lt_of_not_le hlen)
    have hres : enforceMaxCacheSize cache =
        ((cache.insertionSort byLastAnalyzed).take
          (cache.length - cacheMaxSize)).foldl
          (fun acc p => mapDelete acc p.1) cache := by
      unfold enforceMaxCacheSize
      rw [if_neg hlen]
    set entries := cache.insertionSort byLastAnalyzed with hent
    set k := cache.length - cacheMaxSize with hk
    set toRemove := entries.take k with htr
    set kept := entries.drop k with hkp
    have hperm : entries.Perm cache := List.perm_insertionSort _ _
    have hsorted : List.Sorted byLastAnalyzed entries :=
      List.sorted_insertionSort _ _
    have hsplit : toRemove ++ kept = entries := List.take_append_drop k entries
    have hknd : (mapKeys entries).Nodup :=
      ((hperm.map Prod.fst).nodup_iff).mpr hnd
    have hdisj : (mapKeys toRemove).Disjoint (mapKeys kept) := by
      have : mapKeys entries = mapKeys toRemove ++ mapKeys kept := by
        rw [← hsplit]
        simp [mapKeys]
      rw [this, List.nodup_append] at hknd
      exact hknd.2.2
    have hfold : enforceMaxCacheSize cache =
        cache.filter (fun q => decide (∀ p ∈ toRemove, ¬ q.1 = p.1)) := by
      rw [hres, foldl_delete_all]
    have hpredRemove : ∀ q ∈ toRemove,
        (decide (∀ p ∈ toRemove, ¬ q.1 = p.1)) = false := by
      intro q hq
      simp only [decide_eq_false_iff_not]
      intro h
      exact h q hq rfl
    have hpredKept : ∀ q ∈ kept,
        (decide (∀ p ∈ toRemove, ¬ q.1 = p.1)) = true := by
      intro q hq
      simp only [decide_eq_true_eq]
      intro p hp hqk
      exact hdisj (List.mem_map.mpr ⟨p, hp, rfl⟩)
        (hqk ▸ List.mem_map.mpr ⟨q, hq, rfl⟩)
    have hresperm : (enforceMaxCacheSize cache).Perm kept := by
      rw [hfold]
      have h1 := (hperm.symm).filter
        (fun q => decide (∀ p ∈ toRemove, ¬ q.1 = p.1))
      have h2 : entries.filter
          (fun q => decide (∀ p ∈ toRemove, ¬ q.1 = p.1)) = kept := by
        rw [← hsplit, List.filter_append,
            List.filter_eq_nil_iff.mpr (by
              intro a ha
              rw [hpredRemove a ha]
              simp),
            List.filter_eq_self.mpr hpredKept]
        simp
      rw [← h2]
      exact h1
    have hkeptlen : kept.length = cacheMaxSize := by
      rw [hkp, List.length_drop, hperm.length_eq, hk,
          Nat.sub_sub_self hle]
    refine ⟨?_, ?_, ?_⟩
    · rw [hresperm.length_eq, hkeptlen, Nat.min_eq_right hle]
    · intro q hq
      rw [hfold] at hq
      exact (List.mem_filter.mp hq).1
    · intro p hp hnp q hq
      have hqkept : q ∈ kept := hresperm.mem_iff.mp hq
      have hpent : p ∈ entries := hperm.mem_iff.mpr hp
      have hprem : p ∈ toRemove := by
        rw [← hsplit] at hpent
        rcases List.mem_append.mp hpent with h | h
        · exact h
        · exact absurd (hresperm.mem_iff.mpr h) hnp
      have := (List.pairwise_append.mp (hsplit ▸ hsorted)).2.2
      exact this p hprem q hqkept

/-! ## Validity, scan and mapping lemmas -/

/-- A valid entry's age is within the full TTL (the halved large-file
TTL is the stricter bound). -/
lemma isCacheValid_age {entry : EditorCacheEntry} {doc : TextDocument}
    {md : Option EditorMetaData} {now : Nat}
    (h : isCacheValid entry doc md now = true) :
    now - entry.lastAnalyzed ≤ cacheMaxAge := by
  unfold isCacheValid at h
  split at h
  · cases h
  split at h
  · cases h
  split at h
  · cases h
  simp only [decide_eq_true_eq] at h
  split at h
  · exact Nat.le_trans h (Nat.div_le_self _ _)
  · exact h

/-- A valid entry's stored hash equals the hash of the document's
current text. -/
lemma isCacheValid_hash {entry : EditorCacheEntry} {doc : TextDocument}
    {md : Option EditorMetaData} {now : Nat}
    (h : isCacheValid entry doc md now = true) :
    entry.contentHash = calculateContentHash doc.text := by
  unfold isCacheValid at h
  split at h
  · cases h
  split at h
  · cases h
  split at h
  · rename_i hne
    cases h
  · rename_i hne
    exact Decidable.not_not.mp hne

/-- The standard scan's matched-line list and count depend only on the
pattern and the document text. -/
lemma computeAnalysis_text {f : Filter} {info info' : EditorInfo}
    {t t' : Nat} (h : info.document.text = info'.document.text) :
    (computeAnalysis f info t).matchedLineNumbers
      = (computeAnalysis f info' t').matchedLineNumbers := by
  simp only [computeAnalysis, h]

/-- The two scan loops keep identical line numbers and counts while the
optimized loop's range list is the `maxRanges`-truncation of the
standard one. -/
lemma scan_fold_rel (f : Filter) (lines : List (Nat × String)) :
    ∀ (R : List Range) (N : List Nat) (c : Nat),
      lines.foldl (fun acc p => scanStepOptimized acc p (f.testLine p.2))
        (R.take maxRanges, N, c)
      = ((lines.foldl (fun acc p => scanStep acc p (f.testLine p.2))
            (R, N, c)).1.take maxRanges,
         (lines.foldl (fun acc p => scanStep acc p (f.testLine p.2))
            (R, N, c)).2.1,
         (lines.foldl (fun acc p => scanStep acc p (f.testLine p.2))
            (R, N, c)).2.2) := by
  induction lines with
  | nil => intro R N c; rfl
  | cons p rest ih =>
    intro R N c
    rw [List.foldl_cons, List.foldl_cons]
    cases hm : f.testLine p.2 with
    | false =>
      have hstep : scanStep (R, N, c) p false = (R, N, c) := rfl
      have hstepO : scanStepOptimized (R.take maxRanges, N, c) p false
          = (R.take maxRanges, N, c) := rfl
      rw [hstep, hstepO, ih]
    | true =>
      have hstep : scanStep (R, N, c) p true
          = (R ++ [(⟨⟨p.1, 0⟩, ⟨p.1, 0⟩⟩ : Range)], N ++ [p.1], c + 1) :=
        rfl
      have hstepO : scanStepOptimized (R.take maxRanges, N, c) p true
          = ((R ++ [(⟨⟨p.1, 0⟩, ⟨p.1, 0⟩⟩ : Range)]).take maxRanges,
             N ++ [p.1], c + 1) := by
        show (if (R.take maxRanges).length < maxRanges
              then R.take maxRanges ++ [(⟨⟨p.1, 0⟩, ⟨p.1, 0⟩⟩ : Range)]
              else R.take maxRanges,
              N ++ [p.1], c + 1)
          = ((R ++ [(⟨⟨p.1, 0⟩, ⟨p.1, 0⟩⟩ : Range)]).take maxRanges,
             N ++ [p.1], c + 1)
        by_cases hlt : (R.take maxRanges).length < maxRanges
        · rw [if_pos hlt]
          have hRlt : R.length < maxRanges := by
            rw [List.length_take] at hlt
            omega
          have h1 : R.take maxRanges = R :=
            List.take_of_length_le (Nat.le_of_lt hRlt)
          have h2 : (R ++ [(⟨⟨p.1, 0⟩, ⟨p.1, 0⟩⟩ : Range)]).take maxRanges
              = R ++ [⟨⟨p.1, 0⟩, ⟨p.1, 0⟩⟩] :=
            List.take_of_length_le (by simp; omega)
          rw [h1, h2]
        · rw [if_neg hlt]
          have hRge : maxRanges ≤ R.length := by
            rw [List.length_take] at hlt
            omega
          have h2 : (R ++ [(⟨⟨p.1, 0⟩, ⟨p.1, 0⟩⟩ : Range)]).take maxRanges
              = R.take maxRanges := by
            rw [List.take_append_eq_append_take,
                Nat.sub_eq_zero_of_le hRge]
            simp
          rw [h2]
      rw [hstep, hstepO, ih]

/-- The degraded scan's matched-line list and count agree with the
standard scan's, and its stored hash is the same content
fingerprint — only the range list is truncated. -/
lemma computeOptimized_nums_count_hash (f : Filter) (info : EditorInfo)
    (t : Nat) :
    (computeOptimizedAnalysis f info t).matchedLineNumbers
        = (computeAnalysis f info t).matchedLineNumbers ∧
    (computeOptimizedAnalysis f info t).count
        = (computeAnalysis f info t).count ∧
    (computeOptimizedAnalysis f info t).contentHash
        = (computeAnalysis f info t).contentHash := by
  have h := scan_fold_rel f (info.document.text.splitOn "\n").enum [] [] 0
  rw [List.take_nil] at h
  refine ⟨?_, ?_, ?_⟩
  · simp only [computeOptimizedAnalysis, computeAnalysis, h]
  · simp only [computeOptimizedAnalysis, computeAnalysis, h]
  · simp only [computeOptimizedAnalysis, computeAnalysis]

/-- `jsIndexOf` fails exactly on absent elements. -/
lemma jsIndexOf_eq_none {l : List Nat} {o : Nat} :
    jsIndexOf l o = none ↔ o ∉ l := by
  induction l with
  | nil => simp [jsIndexOf]
  | cons x xs ih =>
    unfold jsIndexOf
    by_cases hx : x = o
    · simp [hx]
    · rw [if_neg hx, Option.map_eq_none', ih, List.mem_cons, not_or]
      constructor
      · intro h
        exact ⟨fun he => hx he.symm, h⟩
      · exact fun h => h.2

/-- A found index points back at the element. -/
lemma jsIndexOf_get {l : List Nat} {o : Nat} :
    ∀ {i : Nat}, jsIndexOf l o = some i → l.get? i = some o := by
  induction l with
  | nil => intro i h; cases h
  | cons x xs ih =>
    intro i h
    unfold jsIndexOf at h
    by_cases hx : x = o
    · rw [if_pos hx] at h
      cases h
      simp [hx]
    · rw [if_neg hx] at h
      cases hj : jsIndexOf xs o with
      | none => rw [hj] at h; cases h
      | some j =>
        rw [hj] at h
        have hji : j + 1 = i := by simpa using h
        subst hji
        simpa using ih hj

/-- A present element has an index. -/
lemma jsIndexOf_isSome {l : List Nat} {o : Nat} (h : o ∈ l) :
    ∃ i, jsIndexOf l o = some i := by
  cases hj : jsIndexOf l o with
  | none => exact absurd h (jsIndexOf_eq_none.mp hj)
  | some i => exact ⟨i, rfl⟩

/-! ## Content-generation, key-invariant and command lemmas -/

/-- In-range line access always succeeds and yields the line. -/
lemma lineAt_lt {doc : TextDocument} {n : Nat} (h : n < lineCount doc) :
    lineAt doc n = some ((docLines doc).getD n "") := by
  unfold lineAt
  unfold lineCount at h
  rw [List.getD_eq_getElem?_getD, List.get?_eq_getElem?,
      List.getElem?_eq_getElem h]
  rfl

/-- The emit loop of `generateFilteredContent` never throws and emits
exactly the in-range visible lines. -/
lemma foldlM_emit (doc : TextDocument) :
    ∀ (l : List Nat) (acc : List String),
      (l.foldlM
        (fun arr lineNum =>
          if lineNum < lineCount doc then
            (lineAt doc lineNum).map (fun s => arr ++ [s])
          else pure arr)
        acc : Option (List String))
      = some (acc ++
          (l.filter (fun n => decide (n < lineCount doc))).map
            (fun n => (docLines doc).getD n "")) := by
  intro l
  induction l with
  | nil =>
    intro acc
    simp
  | cons n rest ih =>
    intro acc
    rw [List.foldlM_cons]
    by_cases hn : n < lineCount doc
    · rw [if_pos hn, lineAt_lt hn,
          @List.filter_cons_of_pos ℕ (fun m => decide (m < lineCount doc))
            n rest (by simpa using hn),
          List.map_cons]
      refine Eq.trans (ih (acc ++ [(docLines doc).getD n ""])) ?_
      simp
    · rw [if_neg hn,
          @List.filter_cons_of_neg ℕ (fun m => decide (m < lineCount doc))
            n rest (by simpa using hn)]
      exact ih acc

/-- The decoration fold of `buildFocusDecorationRanges` as a
`filterMap` through the original-to-focus mapping. -/
lemma buildRanges_aux (V : List Nat) :
    ∀ (ml : List Nat) (acc : List Range),
      ml.foldl
        (fun ranges o =>
          match jsIndexOf V o with
          | some idx => ranges ++ [⟨⟨idx + 1, 0⟩, ⟨idx + 1, 0⟩⟩]
          | none => ranges)
        acc
      = acc ++ ml.filterMap
          (fun o => (originalToFocusLine V o).map
            (fun fl => (⟨⟨fl, 0⟩, ⟨fl, 0⟩⟩ : Range))) := by
  intro ml
  induction ml with
  | nil =>
    intro acc
    simp
  | cons o rest ih =>
    intro acc
    rw [List.foldl_cons, List.filterMap_cons]
    cases hj : jsIndexOf V o with
    | none =>
      have ho : originalToFocusLine V o = none := by
        unfold originalToFocusLine
        rw [hj]
        rfl
      rw [ho]
      simpa using ih acc
    | some idx =>
      have ho : originalToFocusLine V o = some (idx + 1) := by
        unfold originalToFocusLine
        rw [hj]
        rfl
      rw [ho]
      simp only [Option.map_some]
      rw [ih]
      simp

/-- The TTL sweep only removes entries. -/
lemma cleanup_sublist (cache : List (String × EditorCacheEntry))
    (now : Nat) : (cleanupExpiredCache cache now).Sublist cache := by
  unfold cleanupExpiredCache
  rw [foldl_delete_expired]
  exact List.filter_sublist cache

/-- The TTL sweep preserves the duplicate-free-keys invariant. -/
lemma cleanup_keys_nodup {cache : List (String × EditorCacheEntry)}
    (hnd : (mapKeys cache).Nodup) (now : Nat) :
    (mapKeys (cleanupExpiredCache cache now)).Nodup :=
  List.Nodup.sublist ((cleanup_sublist cache now).map Prod.fst) hnd

/-- `Map.set` preserves the duplicate-free-keys invariant. -/
lemma mapSet_keys_nodup {α : Type} {m : List (String × α)}
    (hnd : (mapKeys m).Nodup) (k : String) (v : α) :
    (mapKeys (mapSet m k v)).Nodup := by
  unfold mapSet
  by_cases hk : (m.find? (fun p => p.1 = k)).isSome
  · rw [if_pos hk]
    have : mapKeys (m.map (fun p => if p.1 = k then (k, v) else p))
        = mapKeys m := by
      unfold mapKeys
      rw [List.map_map]
      refine List.map_congr_left ?_
      intro p _
      by_cases hp : p.1 = k
      · simp [hp]
      · simp [hp]
    rw [this]
    exact hnd
  · rw [if_neg hk]
    have hkm : k ∉ mapKeys m := by
      intro hmem
      rcases List.mem_map.mp hmem with ⟨p, hp, hpk⟩
      rw [Option.not_isSome_iff_eq_none, List.find?_eq_none] at hk
      exact hk p hp (by simpa using hpk)
    unfold mapKeys
    rw [List.map_append]
    rw [List.nodup_append]
    refine ⟨hnd, List.nodup_singleton k, ?_⟩
    intro a ha hb
    rw [show List.map Prod.fst [(k, v)] = [k] from rfl,
        List.mem_singleton] at hb
    subst hb
    exact hkm ha

/-- After any `getCachedAnalysisOrCompute` call, a cache that respected
the capacity bound still respects it. -/
lemma gca_cache_length_le (f : Filter) (info : EditorInfo) (now : Nat)
    (hnd : (mapKeys f.editorCache).Nodup)
    (hlen : f.editorCache.length ≤ cacheMaxSize) :
    ((getCachedAnalysisOrCompute f info now).2).length ≤ cacheMaxSize := by
  have hsub := cleanup_sublist f.editorCache now
  have hlen1 : (cleanupExpiredCache f.editorCache now).length ≤ cacheMaxSize :=
    Nat.le_trans hsub.length_le hlen
  have hnd1 : (mapKeys (cleanupExpiredCache f.editorCache now)).Nodup :=
    cleanup_keys_nodup hnd now
  unfold getCachedAnalysisOrCompute
  cases hm : mapGet (cleanupExpiredCache f.editorCache now)
      info.document.uriStr with
  | none =>
    simp only [hm]
    have hnd2 := mapSet_keys_nodup hnd1 info.document.uriStr
      (if info.metaData.isLargeFile then
        { computeOptimizedAnalysis f info now with lastAnalyzed := now }
       else { computeAnalysis f info now with lastAnalyzed := now })
    calc (enforceMaxCacheSize _).length
        = min _ cacheMaxSize := (enforce_spec hnd2).1
      _ ≤ cacheMaxSize := Nat.min_le_right _ _
  | some cached =>
    simp only [hm]
    by_cases hv : isCacheValid cached info.document (some info.metaData) now
    · rw [if_pos hv]
      exact hlen1
    · rw [if_neg hv]
      have hnd2 := mapSet_keys_nodup hnd1 info.document.uriStr
        (if info.metaData.isLargeFile then
          { computeOptimizedAnalysis f info now with lastAnalyzed := now }
         else { computeAnalysis f info now with lastAnalyzed := now })
      calc (enforceMaxCacheSize _).length
          = min _ cacheMaxSize := (enforce_spec hnd2).1
        _ ≤ cacheMaxSize := Nat.min_le_right _ _

/-! ## Claim theorems -/

/-- Claim C4: for every document text, the degraded (large-file)
analysis and the standard analysis produce identical matched-line lists
and identical match counts; the degraded analysis differs only in that
its decoration-range list is the standard list capped at `maxRanges`
(500), so the matched-line list is never truncated. -/
theorem claim_C4_degraded_scan_equivalence (f : Filter)
    (info : EditorInfo) (now : Nat) :
    (computeOptimizedAnalysis f info now).matchedLineNumbers
      = (computeAnalysis f info now).matchedLineNumbers ∧
    (computeOptimizedAnalysis f info now).count
      = (computeAnalysis f info now).count ∧
    (computeOptimizedAnalysis f info now).matchedRanges
      = (computeAnalysis f info now).matchedRanges.take maxRanges ∧
    (computeOptimizedAnalysis f info now).matchedRanges.length
      ≤ maxRanges := by
  have h := scan_fold_rel f (info.document.text.splitOn "\n").enum [] [] 0
  rw [List.take_nil] at h
  refine ⟨?_, ?_, ?_, ?_⟩
  · simp only [computeOptimizedAnalysis, computeAnalysis, h]
  · simp only [computeOptimizedAnalysis, computeAnalysis, h]
  · simp only [computeOptimizedAnalysis, computeAnalysis, h]
  · simp only [computeOptimizedAnalysis, h]
    rw [List.length_take]
    exact min_le_left _ _

/-- Claim C7: replacing a filter's pattern with `setRegex` empties its
document cache and bumps the pattern-version counter, and every
subsequent query (`getCachedAnalysisOrCompute` or
`getMatchedLineNumbers`) recomputes fresh results under the new
pattern, never reusing entries computed under the old one. -/
theorem claim_C7_setRegex_invalidates (f : Filter) (r : Regex) :
    (setRegex f r).editorCache = [] ∧
    (setRegex f r).regexVersion = f.regexVersion + 1 ∧
    (setRegex f r).regex = r ∧
    (∀ (info : EditorInfo) (now : Nat),
      (getCachedAnalysisOrCompute (setRegex f r) info now).1
        = (if info.metaData.isLargeFile then
            { computeOptimizedAnalysis (setRegex f r) info now with
                lastAnalyzed := now }
           else
            { computeAnalysis (setRegex f r) info now with
                lastAnalyzed := now })) ∧
    ∀ (uri : String) (now : Nat) (info : EditorInfo),
      mapGet (setRegex f r).activeEditors uri = some info →
      getMatchedLineNumbers (setRegex f r) uri now
        = (if info.metaData.isLargeFile then
            computeOptimizedAnalysis (setRegex f r) info now
           else computeAnalysis (setRegex f r) info now).matchedLineNumbers := by
  have hfresh : ∀ (info : EditorInfo) (now : Nat),
      (getCachedAnalysisOrCompute (setRegex f r) info now).1
        = (if info.metaData.isLargeFile then
            { computeOptimizedAnalysis (setRegex f r) info now with
                lastAnalyzed := now }
           else
            { computeAnalysis (setRegex f r) info now with
                lastAnalyzed := now }) := by
    intro info now
    have hc : (setRegex f r).editorCache = [] := rfl
    simp only [getCachedAnalysisOrCompute, hc]
    rfl
  refine ⟨rfl, rfl, rfl, hfresh, ?_⟩
  intro uri now info hinfo
  have hc : mapGet (setRegex f r).editorCache uri
      = (none : Option EditorCacheEntry) := rfl
  simp only [getMatchedLineNumbers, hinfo, hc]
  rw [hfresh info now]
  cases hL : info.metaData.isLargeFile <;> simp [hL]

/-- Claim C8: for a sorted visible sequence V, a visible original line
o maps to focus line `indexOf(o, V) + 1`, an invisible line has no
mapping, the reverse lookup `V[f - 1]` round-trips every visible line
back to itself, and `buildFocusDecorationRanges` places one range
exactly at each matched line's focus position via this mapping. -/
theorem claim_C8_index_mapping_round_trip (V : List Nat) (o : Nat) :
    (o ∈ V → ∃ i, jsIndexOf V o = some i ∧
        originalToFocusLine V o = some (i + 1) ∧
        focusToOriginalLine V (i + 1) = some o) ∧
    (o ∉ V → originalToFocusLine V o = none) ∧
    ∀ ml : List Nat,
      buildFocusDecorationRanges ml V
        = ml.filterMap
            (fun m => (originalToFocusLine V m).map
              (fun fl => (⟨⟨fl, 0⟩, ⟨fl, 0⟩⟩ : Range))) := by
  refine ⟨?_, ?_, ?_⟩
  · intro h
    obtain ⟨i, hi⟩ := jsIndexOf_isSome h
    refine ⟨i, hi, ?_, ?_⟩
    · unfold originalToFocusLine
      rw [hi]
      rfl
    · unfold focusToOriginalLine
      simpa using jsIndexOf_get hi
  · intro h
    unfold originalToFocusLine
    rw [jsIndexOf_eq_none.mpr h]
    rfl
  · intro ml
    unfold buildFocusDecorationRanges
    rw [buildRanges_aux]
    rfl

/-- Claim C9: a pattern string the host regex engine rejects never
mutates state — `editFilter` reports an invalid pattern and keeps the
filter (hence its previous pattern) unchanged, and `addFilter` aborts
before touching the group or the project. -/
theorem claim_C9_invalid_pattern_rejected (s : String)
    (compile : String → Option Regex) (h : compile s = none) :
    (∀ f : Filter, (editFilter f (some s) compile).2 = f) ∧
    (∀ f : Filter, s ≠ f.regex.source →
      (editFilter f (some s) compile).1 = CommandOutcome.invalidPattern) ∧
    ∀ (grp : Option Group) (proj : Project) (newId : String),
      (addFilter grp proj (some s) compile newId).2 = (grp, proj) ∧
      (addFilter grp proj (some s) compile newId).1
        ≠ CommandOutcome.updated := by
  refine ⟨?_, ?_, ?_⟩
  · intro f
    by_cases hs : s = f.regex.source <;> simp [editFilter, hs, h]
  · intro f hs
    simp [editFilter, hs, h]
  · intro grp proj newId
    by_cases hse : s = "" <;> cases grp <;> simp [addFilter, hse, h]

/-- Claim C10: the synthesized focus-view content consists of the empty
header line followed by exactly those visible lines whose index is
strictly below the document's current line count — indices at or
beyond it (stale cache after the document shrank) are skipped, so the
construction never performs an out-of-range line access (the result is
always `some`). -/
theorem claim_C10_focus_content_in_range (project : Option Project)
    (uri : String) (doc : TextDocument) (now : Nat) :
    generateFilteredContent project uri doc now
      = some (String.intercalate "\n"
          ("" :: ((getVisibleLines project uri doc now).filter
              (fun n => decide (n < lineCount doc))).map
            (fun n => (docLines doc).getD n ""))) := by
  simp only [generateFilteredContent]
  rw [foldlM_emit]
  rfl

/-- Claim C1: when at least one positive (shown, non-exclude) filter is
active, the visible-line set of `getVisibleLines` is exactly the union
of the positive filters' matched-line numbers — exclude filters do not
subtract anything (they do not appear in the characterization at
all). -/
theorem claim_C1_positive_union (project : Option Project)
    (uri : String) (doc : TextDocument) (now : Nat) (l : Nat)
    (hpos : (getActiveFilters project).1 ≠ []) :
    l ∈ getVisibleLines project uri doc now ↔
      ∃ f ∈ (getActiveFilters project).1,
        l ∈ getMatchedLineNumbers f uri now := by
  unfold getVisibleLines
  rw [(List.perm_insertionSort _ _).mem_iff]
  simp only [collectResultLines]
  rw [if_pos (List.length_pos.mpr hpos)]
  rw [mem_posUnion (fun f => getMatchedLineNumbers f uri now)]
  simp

/-- Claim C2: when no positive filter is active, the visible-line set
of `getVisibleLines` is `[0, lineCount)` minus the union of the shown
exclude filters' matched lines, returned sorted ascending and without
duplicates; with no active filters at all it is the full original line
range. -/
theorem claim_C2_exclude_difference (project : Option Project)
    (uri : String) (doc : TextDocument) (now : Nat)
    (hpos : (getActiveFilters project).1 = []) :
    (∀ l, l ∈ getVisibleLines project uri doc now ↔
        (l < lineCount doc ∧
          ∀ f ∈ (getActiveFilters project).2,
            l ∉ getMatchedLineNumbers f uri now)) ∧
    (getVisibleLines project uri doc now).Sorted (· ≤ ·) ∧
    (getVisibleLines project uri doc now).Nodup ∧
    ((getActiveFilters project).2 = [] →
      getVisibleLines project uri doc now = List.range (lineCount doc)) := by
  have hmem : ∀ l, l ∈ getVisibleLines project uri doc now ↔
      (l < lineCount doc ∧
        ∀ f ∈ (getActiveFilters project).2,
          l ∉ getMatchedLineNumbers f uri now) := by
    intro l
    unfold getVisibleLines
    rw [(List.perm_insertionSort _ _).mem_iff]
    simp only [collectResultLines]
    rw [if_neg (by rw [hpos]; simp)]
    rw [mem_exclDiff (fun f => getMatchedLineNumbers f uri now)]
    rw [mem_foldl_setAdd]
    simp [List.mem_range]
  have hsorted : (getVisibleLines project uri doc now).Sorted (· ≤ ·) :=
    List.sorted_insertionSort _ _
  have hnodup : (getVisibleLines project uri doc now).Nodup := by
    unfold getVisibleLines
    rw [(List.perm_insertionSort _ _).nodup_iff]
    simp only [collectResultLines]
    rw [if_neg (by rw [hpos]; simp)]
    exact nodup_exclDiff _ _ _
      (nodup_foldl_setAdd _ _ List.nodup_nil)
  refine ⟨hmem, hsorted, hnodup, ?_⟩
  intro hexcl
  have hmem' : ∀ l, l ∈ getVisibleLines project uri doc now ↔
      l ∈ List.range (lineCount doc) := by
    intro l
    rw [hmem l, hexcl, List.mem_range]
    simp
  have hperm : (getVisibleLines project uri doc now).Perm
      (List.range (lineCount doc)) := by
    refine List.perm_of_nodup_nodup_toFinset_eq hnodup
      (List.nodup_range _) ?_
    ext a
    simp only [List.mem_toFinset]
    exact hmem' a
  exact List.eq_of_perm_of_sorted hperm hsorted
    ((List.sorted_lt_range _).imp le_of_lt)

/-- Claim C3: a stored entry whose version, size and hash match the
document's current values and whose age is within the (possibly
halved) TTL is returned unchanged by `getCachedAnalysisOrCompute` —
regardless of how it was captured — and, being the result of a
standard or degraded scan of identical content (the cache invariant:
entries are only ever created by one of the two scans), its
matched-line list is exactly what a from-scratch scan of the current
content produces. -/
theorem claim_C3_cache_hit (f : Filter) (info : EditorInfo) (now : Nat)
    (entry : EditorCacheEntry)
    (hnd : (mapKeys f.editorCache).Nodup)
    (hget : mapGet f.editorCache info.document.uriStr = some entry)
    (hvalid : isCacheValid entry info.document (some info.metaData) now
      = true) :
    (getCachedAnalysisOrCompute f info now).1 = entry ∧
    ∀ (info0 : EditorInfo) (t0 ts : Nat),
      (entry = { computeAnalysis f info0 t0 with lastAnalyzed := ts } ∨
       entry = { computeOptimizedAnalysis f info0 t0 with
         lastAnalyzed := ts }) →
      entry.matchedLineNumbers
        = (computeAnalysis f info now).matchedLineNumbers := by
  have hage : now - entry.lastAnalyzed ≤ cacheMaxAge :=
    isCacheValid_age hvalid
  have hget1 : mapGet (cleanupExpiredCache f.editorCache now)
      info.document.uriStr = some entry := by
    rw [cleanup_eq_filter hnd]
    exact mapGet_filter _ hget (by simpa using hage)
  constructor
  · simp only [getCachedAnalysisOrCompute, hget1, hvalid]
    rfl
  · intro info0 t0 ts hscan
    have hh : entry.contentHash = calculateContentHash info.document.text :=
      isCacheValid_hash hvalid
    rcases hscan with hscan | hscan
    · rw [hscan] at hh
      have htext : info0.document.text = info.document.text := by
        simpa [computeAnalysis, calculateContentHash] using hh
      rw [hscan]
      simpa using computeAnalysis_text htext
    · rw [hscan] at hh
      have htext : info0.document.text = info.document.text := by
        simpa [computeOptimizedAnalysis, calculateContentHash] using hh
      rw [hscan]
      have hnums := (computeOptimized_nums_count_hash f info0 t0).1
      simpa [hnums] using computeAnalysis_text htext

/-- Claim C5 counterexample: a cache entry captured by the degraded
(large-file) scan at time 0, swept at time 200000 — its age exceeds
the halved TTL (150000), yet `cleanupExpiredCache` retains it, because
the sweep always uses the full TTL and entries record no capture
mode. -/
theorem claim_C5_counterexample :
    cacheMaxAge / 2 < 200000 - entryDegraded.lastAnalyzed ∧
    cleanupExpiredCache [("u", entryDegraded)] 200000
      = [("u", entryDegraded)] := by
  constructor
  · decide
  · rfl

/-- Claim C5 (amended): the TTL sweep at the start of every
`getCachedAnalysisOrCompute` call removes exactly the entries whose age
exceeds the full TTL (300000 ms), regardless of the mode in which they
were captured. -/
theorem claim_C5_sweep_full_ttl
    (cache : List (String × EditorCacheEntry)) (now : Nat)
    (hnd : (mapKeys cache).Nodup) :
    ∀ q, q ∈ cleanupExpiredCache cache now ↔
      (q ∈ cache ∧ now - q.2.lastAnalyzed ≤ cacheMaxAge) := by
  intro q
  rw [cleanup_eq_filter hnd, List.mem_filter]
  simp

/-- Claim C6: capacity eviction keeps at most `cacheMaxSize` (10)
entries, evicts only existing entries, removes exactly the oldest by
capture timestamp (every evicted entry is no newer than every
survivor), and consequently every `getCachedAnalysisOrCompute` call
leaves a bounded cache. -/
theorem claim_C6_capacity_eviction
    (cache : List (String × EditorCacheEntry))
    (hnd : (mapKeys cache).Nodup) :
    (enforceMaxCacheSize cache).length = min cache.length cacheMaxSize ∧
    (∀ q ∈ enforceMaxCacheSize cache, q ∈ cache) ∧
    (∀ p ∈ cache, p ∉ enforceMaxCacheSize cache →
      ∀ q ∈ enforceMaxCacheSize cache,
        p.2.lastAnalyzed ≤ q.2.lastAnalyzed) ∧
    ∀ (f : Filter) (info : EditorInfo) (now : Nat),
      (mapKeys f.editorCache).Nodup →
      f.editorCache.length ≤ cacheMaxSize →
      ((getCachedAnalysisOrCompute f info now).2).length ≤ cacheMaxSize := by
  obtain ⟨h1, h2, h3⟩ := enforce_spec hnd
  exact ⟨h1, h2, h3, fun f info now hnd2 hlen2 =>
    gca_cache_length_le f info now hnd2 hlen2⟩

/-! ## Witnesses -/

/-- Witness for C1: on the three-line document with the positive filter
matching line 1 and the exclude filter shown and matching lines 1 and
2, the characterization holds at line 1. -/
theorem claim_C1_witness :
    1 ∈ getVisibleLines (some projMixed) "u" docABC 0 ↔
      ∃ f ∈ (getActiveFilters (some projMixed)).1,
        1 ∈ getMatchedLineNumbers f "u" 0 :=
  claim_C1_positive_union (some projMixed) "u" docABC 0 1
    (fun h => List.noConfusion h)

/-- Witness for C2: with no filters at all the visible set is the full
original line range. -/
theorem claim_C2_witness :
    getVisibleLines none "u" docABC 0 = List.range (lineCount docABC) :=
  (claim_C2_exclude_difference none "u" docABC 0 rfl).2.2.2 rfl

/-- Witness for C3: both a standard-captured and a degraded-captured
scan of `docABC` at time 100 are cache hits at time 200, returned
unchanged and matching a fresh scan. -/
theorem claim_C3_witness :
    ((getCachedAnalysisOrCompute filterA infoABC 200).1 = entryHit ∧
      entryHit.matchedLineNumbers
        = (computeAnalysis filterA infoABC 200).matchedLineNumbers) ∧
    (getCachedAnalysisOrCompute filterAL infoLarge 200).1 = entryHitL ∧
    entryHitL.matchedLineNumbers
      = (computeAnalysis filterAL infoLarge 200).matchedLineNumbers :=
  ⟨⟨(claim_C3_cache_hit filterA infoABC 200 entryHit
        (by decide) rfl (by decide)).1,
    (claim_C3_cache_hit filterA infoABC 200 entryHit
        (by decide) rfl (by decide)).2 infoABC 100 100 (Or.inl rfl)⟩,
   (claim_C3_cache_hit filterAL infoLarge 200 entryHitL
        (by decide) rfl (by decide)).1,
   (claim_C3_cache_hit filterAL infoLarge 200 entryHitL
        (by decide) rfl (by decide)).2 infoLarge 100 100 (Or.inr rfl)⟩

/-- Witness for C5 (amended): a fresh entry of age 90 survives the
sweep. -/
theorem claim_C5_witness :
    ("u1", entryOld) ∈ cleanupExpiredCache [("u1", entryOld)] 100 ↔
      (("u1", entryOld) ∈ [("u1", entryOld)] ∧
        100 - ("u1", entryOld).2.lastAnalyzed ≤ cacheMaxAge) :=
  claim_C5_sweep_full_ttl [("u1", entryOld)] 100 (by decide)
    ("u1", entryOld)

/-- Witness for C6: the two-entry cache respects the capacity
characterization, and a concrete `getCachedAnalysisOrCompute` call
leaves a bounded cache. -/
theorem claim_C6_witness :
    (enforceMaxCacheSize cacheTwo).length
      = min cacheTwo.length cacheMaxSize ∧
    ((getCachedAnalysisOrCompute filterA infoABC 200).2).length
      ≤ cacheMaxSize :=
  ⟨(claim_C6_capacity_eviction cacheTwo (by decide)).1,
   (claim_C6_capacity_eviction cacheTwo (by decide)).2.2.2 filterA
     infoABC 200 (by decide) (by decide)⟩

/-- Witness for C7: after replacing the pattern, the query on the
previously cached document recomputes under the new pattern. -/
theorem claim_C7_witness :
    getMatchedLineNumbers (setRegex filterPos regexA) "u" 0
      = (if infoABC.metaData.isLargeFile then
          computeOptimizedAnalysis (setRegex filterPos regexA) infoABC 0
         else
          computeAnalysis (setRegex filterPos regexA) infoABC 0).matchedLineNumbers :=
  (claim_C7_setRegex_invalidates filterPos regexA).2.2.2.2 "u" 0 infoABC
    rfl

/-- Witness for C8: on V = [2,5,7], line 5 round-trips and line 3 has
no mapping. -/
theorem claim_C8_witness :
    (∃ i, jsIndexOf [2, 5, 7] 5 = some i ∧
        originalToFocusLine [2, 5, 7] 5 = some (i + 1) ∧
        focusToOriginalLine [2, 5, 7] (i + 1) = some 5) ∧
    originalToFocusLine [2, 5, 7] 3 = none :=
  ⟨(claim_C8_index_mapping_round_trip [2, 5, 7] 5).1 (by decide),
   (claim_C8_index_mapping_round_trip [2, 5, 7] 3).2.1 (by decide)⟩

/-- Witness for C9: the non-compiling pattern string leaves the filter
untouched and reports an invalid pattern. -/
theorem claim_C9_witness :
    (editFilter filterPos (some "(") compileNone).2 = filterPos ∧
    (editFilter filterPos (some "(") compileNone).1
      = CommandOutcome.invalidPattern :=
  ⟨(claim_C9_invalid_pattern_rejected "(" compileNone rfl).1 filterPos,
   (claim_C9_invalid_pattern_rejected "(" compileNone rfl).2.1 filterPos
     (by decide)⟩

end LogFocus
